import Mathlib

/-!
Verification development for the honeypot session-intelligence pipeline
(`honeypot_api/app`): entity extraction, the heuristic scam scorer, history
reconciliation and the session completion/callback state machine.

Modelling conventions, used throughout:
* text is `List Char`; Python regex scanning is embedded as explicit
  left-to-right scanners with a fuel argument equal to the input length
  (each step consumes at least one character, so that fuel is always enough);
  character classes (`\w`, `\d`, `\s`) are modelled over their ASCII meaning;
* instants (`datetime`) are integers; `isoformat` is modelled as the decimal
  rendering of the integer and `fromisoformat` as decimal parsing, so the
  round trip behaves like the Python one on the values this program writes;
* Python `set`s have no specified order, so extractor results are returned
  as deduplicated lists and all properties are stated at the level of
  membership;
* scores (Python floats whose literals all carry two decimals) are modelled
  exactly as integer counts of hundredths (per text) and half-hundredths
  (combined confidence), with rational views `scoreQ` and `confidenceQ`.
-/

namespace Honeypot

/-- Python regex `\w` (word character), ASCII part: letters, digits, `_`. -/
def isWordC (c : Char) : Bool := c.isAlphanum || c == '_'

/-- Python regex `\d`. -/
def isDigitC (c : Char) : Bool := c.isDigit

/-- Python regex `\s` / `str.strip()` whitespace, ASCII part. -/
def isSpaceC (c : Char) : Bool :=
  c == ' ' || c == '\t' || c == '\n' || c == '\r' || c == '\x0b' || c == '\x0c'

/-- character data of a string literal. -/
def lc (s : String) : List Char := s.data

/-- Python `str.lower()` (ASCII). -/
def lowerC (cs : List Char) : List Char := cs.map Char.toLower

/-- Python `str.strip()`. -/
def stripC (cs : List Char) : List Char :=
  ((cs.dropWhile isSpaceC).reverse.dropWhile isSpaceC).reverse

/-- Python `str.rstrip(chars)`. -/
def rstripC (strip : List Char) (cs : List Char) : List Char :=
  (cs.reverse.dropWhile (fun c => strip.contains c)).reverse

/-- Python substring containment `needle in hay` for strings. -/
def containsSub (hay needle : List Char) : Bool :=
  if needle.isPrefixOf hay then true
  else
    match hay with
    | [] => false
    | _ :: t => containsSub t needle

/-- Python `str.split(sep)` for a one-character separator. -/
def splitStr (sep : Char) : List Char → List (List Char)
  | [] => [[]]
  | c :: rest =>
    let r := splitStr sep rest
    if c == sep then [] :: r
    else (c :: r.headD []) :: r.tail

/-- word-boundary test against the previous character (`none` = start of text). -/
def isWPrev : Option Char → Bool
  | none => false
  | some c => isWordC c

/-! ## Entity extractor (`app/extraction.py`, class `Extractor`) -/

/-- local-part alphabet of the UPI pattern `[a-zA-Z0-9._-]+`. -/
def isUpiLocalC (c : Char) : Bool := c.isAlphanum || c == '.' || c == '_' || c == '-'

/-- domain alphabet of the UPI pattern `[a-zA-Z0-9.-]{2,}`. -/
def isUpiDomC (c : Char) : Bool := c.isAlphanum || c == '.' || c == '-'

/-- `findall` of the UPI pattern `[a-zA-Z0-9._-]+@[a-zA-Z0-9.-]{2,}`:
leftmost non-overlapping matches, greedy runs on both sides of the `@`. -/
def upiScanF : Nat → List Char → List (List Char)
  | 0, _ => []
  | _ + 1, [] => []
  | f + 1, c :: rest =>
    let run := (c :: rest).takeWhile isUpiLocalC
    let after := (c :: rest).drop run.length
    if run.isEmpty then upiScanF f rest
    else
      match after with
      | '@' :: tl =>
        let dom := tl.takeWhile isUpiDomC
        if 2 ≤ dom.length then
          (run ++ '@' :: dom) :: upiScanF f (tl.drop dom.length)
        else upiScanF f rest
      | _ => upiScanF f rest

/-- rejected generic email providers (first label of the domain). -/
def emailProviders : List (List Char) :=
  [lc "gmail", lc "yahoo", lc "outlook", lc "hotmail", lc "icloud",
   lc "protonmail", lc "zoho", lc "yandex", lc "live"]

/-- accepted full-domain payment-service-provider suffixes. -/
def allowlistPsps : List (List Char) :=
  [lc "ybl", lc "okaxis", lc "okhdfcbank", lc "okicici", lc "paytm", lc "axl",
   lc "sbi", lc "icici", lc "hdfc", lc "kotak", lc "upi", lc "apl", lc "ibl",
   lc "airtel", lc "jio"]

/-- Python `re.sub(r'[.\-]$', '', c)`: drop one trailing dot or hyphen. -/
def stripTrailDotDash (cs : List Char) : List Char :=
  match cs.getLast? with
  | some '.' => cs.dropLast
  | some '-' => cs.dropLast
  | _ => cs

/-- validation of one UPI candidate (the loop body of `extract_upi`):
lower-case and strip, split on `@`, reject generic email providers, accept
an allowlisted domain or a dotless domain of at most 12 characters. -/
def upiCheck (cand : List Char) : Option (List Char) :=
  let c1 := stripTrailDotDash (stripC (lowerC cand))
  let parts := splitStr '@' c1
  if parts.length == 2 then
    let dom := lowerC (parts.getD 1 [])
    let primary := (splitStr '.' dom).headD []
    if emailProviders.contains primary then none
    else if allowlistPsps.contains dom then some c1
    else if !dom.contains '.' && decide (dom.length ≤ 12) then some c1
    else none
  else none

/-- `Extractor.extract_upi`. -/
def extract_upi (text : List Char) : List (List Char) :=
  ((upiScanF text.length text).filterMap upiCheck).dedup

/-- `findall` of the bank-account pattern `\b(?![6789]\d{9}\b)\d{9,18}\b`,
tracking the previous character for the word boundaries. -/
def bankScanF : Nat → Option Char → List Char → List (List Char)
  | 0, _, _ => []
  | _ + 1, _, [] => []
  | f + 1, prev, c :: rest =>
    let digits := (c :: rest).takeWhile isDigitC
    let after := (c :: rest).drop digits.length
    let afterOK := match after with
      | [] => true
      | a :: _ => !isWordC a
    let lookahead := (c == '6' || c == '7' || c == '8' || c == '9') &&
      digits.length == 10 && afterOK
    if !isWPrev prev && isDigitC c && !lookahead &&
        decide (9 ≤ digits.length) && decide (digits.length ≤ 18) && afterOK then
      digits :: bankScanF f (some (digits.getLastD c)) after
    else bankScanF f (some c) rest

/-- `Extractor.extract_bank_accounts`. -/
def extract_bank_accounts (text : List Char) : List (List Char) :=
  (bankScanF text.length none text).dedup

/-- the bank-account scan with its fuel fixed to the input length. -/
def bankScanGo (prev : Option Char) (cs : List Char) : List (List Char) :=
  bankScanF cs.length prev cs

/-- the declarative description of a bank-account match: a word token made
of 9 to 18 digits that is not a 10-digit run starting with 6, 7, 8 or 9. -/
def isBankRun (tok : List Char) : Bool :=
  tok.all isDigitC && decide (9 ≤ tok.length) && decide (tok.length ≤ 18) &&
    !(decide (tok.length = 10) &&
      (tok.headD 'x' == '6' || tok.headD 'x' == '7' ||
       tok.headD 'x' == '8' || tok.headD 'x' == '9'))

/-- the phone pattern's optional separator class `[\-\s]`. -/
def isPhoneSep (c : Char) : Bool := c == '-' || isSpaceC c

/-- match `[6789]\d{9}\b` at the head: the matched digits and the remainder. -/
def phoneMatchCore (cs : List Char) : Option (List Char × List Char) :=
  match cs with
  | [] => none
  | c :: _ =>
    if c == '6' || c == '7' || c == '8' || c == '9' then
      let digits := cs.takeWhile isDigitC
      let after := cs.drop digits.length
      let afterOK := match after with
        | [] => true
        | a :: _ => !isWordC a
      if digits.length == 10 && afterOK then some (digits, after) else none
    else none

/-- match the phone pattern `(?:\+91[\-\s]?)?[6789]\d{9}\b` at the head. -/
def phoneTry (cs : List Char) : Option (List Char × List Char) :=
  match cs with
  | '+' :: '9' :: '1' :: tl =>
    (match tl with
     | s :: tl2 =>
       if isPhoneSep s then
         (phoneMatchCore tl2).map (fun p => ('+' :: '9' :: '1' :: s :: p.1, p.2))
       else
         (phoneMatchCore tl).map (fun p => ('+' :: '9' :: '1' :: p.1, p.2))
     | [] => none)
  | _ => phoneMatchCore cs

/-- `findall` of the phone pattern: leftmost non-overlapping matches. -/
def phoneScanF : Nat → List Char → List (List Char)
  | 0, _ => []
  | _ + 1, [] => []
  | f + 1, c :: rest =>
    match phoneTry (c :: rest) with
    | some (m, rem) => m :: phoneScanF f rem
    | none => phoneScanF f rest

/-- normalization of one phone match (the loop body of `extract_phone_numbers`). -/
def normalizePhone (m : List Char) : List Char :=
  let clean := m.filter Char.isDigit
  if decide (10 < clean.length) && clean.take 2 == ['9', '1'] then '+' :: clean
  else if clean.length == 10 then '+' :: '9' :: '1' :: clean
  else clean

/-- `Extractor.extract_phone_numbers`. -/
def extract_phone_numbers (text : List Char) : List (List Char) :=
  ((phoneScanF text.length text).map normalizePhone).dedup

/-- `findall` of `https?://\S+`. -/
def urlScanF : Nat → List Char → List (List Char)
  | 0, _ => []
  | _ + 1, [] => []
  | f + 1, c :: rest =>
    if (lc "https://").isPrefixOf (c :: rest) then
      let tl := (c :: rest).drop 8
      let body := tl.takeWhile (fun ch => !isSpaceC ch)
      if body.isEmpty then urlScanF f rest
      else (lc "https://" ++ body) :: urlScanF f (tl.drop body.length)
    else if (lc "http://").isPrefixOf (c :: rest) then
      let tl := (c :: rest).drop 7
      let body := tl.takeWhile (fun ch => !isSpaceC ch)
      if body.isEmpty then urlScanF f rest
      else (lc "http://" ++ body) :: urlScanF f (tl.drop body.length)
    else urlScanF f rest

/-- path alphabet of the shortener pattern `[a-zA-Z0-9_-]+`. -/
def isShortRunC (c : Char) : Bool := c.isAlphanum || c == '_' || c == '-'

/-- try one shortener alternative (case-insensitively) followed by `/` and a
path run; returns the matched original-case text and the remainder. -/
def shortTryAlt (alt : List Char) (cs : List Char) : Option (List Char × List Char) :=
  if lowerC (cs.take alt.length) == alt then
    match cs.drop alt.length with
    | '/' :: tl =>
      let run := tl.takeWhile isShortRunC
      if run.isEmpty then none
      else some (cs.take (alt.length + 1 + run.length), tl.drop run.length)
    | _ => none
  else none

/-- ordered alternation of the shortener pattern
`\b(?:bit\.ly|tinyurl\.com|t\.co|rb\.gy)/[a-zA-Z0-9_-]+`. -/
def shortTry (cs : List Char) : Option (List Char × List Char) :=
  (shortTryAlt (lc "bit.ly") cs).orElse fun _ =>
    (shortTryAlt (lc "tinyurl.com") cs).orElse fun _ =>
      (shortTryAlt (lc "t.co") cs).orElse fun _ =>
        shortTryAlt (lc "rb.gy") cs

/-- `findall` of the shortener pattern, with its leading word boundary. -/
def shortScanF : Nat → Option Char → List Char → List (List Char)
  | 0, _, _ => []
  | _ + 1, _, [] => []
  | f + 1, prev, c :: rest =>
    if !isWPrev prev && isWordC c then
      match shortTry (c :: rest) with
      | some (m, rem) => m :: shortScanF f (some (m.getLastD c)) rem
      | none => shortScanF f (some c) rest
    else shortScanF f (some c) rest

/-- trailing punctuation stripped from URLs; faithful to the source literal
`').,;!?"'`, which contains seven characters and no apostrophe. -/
def stripCharsUrl : List Char := lc ").,;!?\""

/-- `Extractor.extract_urls`: protocol URLs right-stripped of punctuation,
plus protocol-less shorteners prefixed with `https://`. -/
def extract_urls (text : List Char) : List (List Char) :=
  let urls := urlScanF text.length text
  let shorteners := shortScanF text.length none text
  (urls.map (rstripC stripCharsUrl) ++
    shorteners.map (fun s => lc "https://" ++ rstripC stripCharsUrl s)).dedup

/-- `Extractor.suspicious_keywords`. -/
def suspiciousKeywords : List (List Char) :=
  [lc "urgent", lc "verify", lc "blocked", lc "kyc", lc "otp", lc "refund",
   lc "reward", lc "winner", lc "lottery", lc "click here", lc "update pan",
   lc "suspend", lc "electricity", lc "disconnect", lc "prize", lc "gift",
   lc "loan", lc "investment"]

/-- `Extractor.extract_keywords`: case-insensitive substring match. -/
def extract_keywords (text : List Char) : List (List Char) :=
  (suspiciousKeywords.filter (fun kw => containsSub (lowerC text) kw)).dedup

/-- the five extraction categories, in the wire naming of
`extract_from_text`. -/
structure ExtOut where
  upi : List (List Char)
  bank : List (List Char)
  links : List (List Char)
  phones : List (List Char)
  keywords : List (List Char)
deriving DecidableEq

/-- `Extractor.extract_from_text`. -/
def extract_from_text (text : List Char) : ExtOut :=
  { upi := extract_upi text
    bank := extract_bank_accounts text
    links := extract_urls text
    phones := extract_phone_numbers text
    keywords := extract_keywords text }

/-! ## Scam likelihood scorer (`app/scam_detection.py`, class `ScamDetector`) -/

/-- the obfuscation separator class `[.\-_ ]` of `_normalize_text`. -/
def isObSep (c : Char) : Bool := c == '.' || c == '-' || c == '_' || c == ' '

/-- match one obfuscated spelling of a word at the head of the text: the
word's characters joined by (greedy, hence maximal) separator runs. Returns
the remainder after the match. -/
def obMatch : List Char → List Char → Option (List Char)
  | [], cs => some cs
  | [w], cs =>
    match cs with
    | c :: tl => if c == w then some tl else none
    | [] => none
  | w :: ws, cs =>
    match cs with
    | c :: tl => if c == w then obMatch ws (tl.dropWhile isObSep) else none
    | [] => none

/-- Python `re.sub(pattern, word, text)` for the obfuscation pattern of
`word`: replace each leftmost non-overlapping match by the word itself. -/
def obSubF (w : List Char) : Nat → List Char → List Char
  | 0, cs => cs
  | _ + 1, [] => []
  | f + 1, c :: rest =>
    match obMatch w (c :: rest) with
    | some rem => w ++ obSubF w f rem
    | none => c :: obSubF w f rest

/-- the fixed `text.replace("0tp", "otp")` step. -/
def zeroTpF : Nat → List Char → List Char
  | 0, cs => cs
  | _ + 1, [] => []
  | f + 1, c :: rest =>
    if (lc "0tp").isPrefixOf (c :: rest) then
      lc "otp" ++ zeroTpF f ((c :: rest).drop 3)
    else c :: zeroTpF f rest

/-- Python `re.sub(r'\s+', ' ', text)`. -/
def collapseWsF : Nat → List Char → List Char
  | 0, cs => cs
  | _ + 1, [] => []
  | f + 1, c :: rest =>
    if isSpaceC c then ' ' :: collapseWsF f (rest.dropWhile isSpaceC)
    else c :: collapseWsF f rest

/-- `ScamDetector._normalize_text`: lower-case, undo obfuscations of
`otp`, `kyc`, `cvv` (in that order), map `0tp` to `otp`, collapse
whitespace, strip. -/
def normalizeText (text : List Char) : List Char :=
  let t0 := lowerC text
  let t1 := obSubF (lc "otp") t0.length t0
  let t2 := obSubF (lc "kyc") t1.length t1
  let t3 := obSubF (lc "cvv") t2.length t2
  let t4 := zeroTpF t3.length t3
  stripC (collapseWsF t4.length t4)

/-- `findall` of `\b\w+\b`: the maximal word-character runs. -/
def wordTokensF : Nat → List Char → List (List Char)
  | 0, _ => []
  | _ + 1, [] => []
  | f + 1, c :: cs =>
    if isWordC c then
      (c :: cs).takeWhile isWordC :: wordTokensF f ((c :: cs).dropWhile isWordC)
    else wordTokensF f cs

/-- maximal word-character runs of a text. -/
def wordTokens (cs : List Char) : List (List Char) := wordTokensF cs.length cs

/-- `ScamDetector._tokenize` (the normalized text is lowered once more,
as in the source). -/
def tokenize (cs : List Char) : List (List Char) := wordTokens (lowerC cs)

/-- `ScamDetector.high_risk_keywords` (note `prize` appears twice, as in
the source list, so a text containing it scores it twice). -/
def highRiskKeywords : List (List Char) :=
  [lc "otp", lc "cvv", lc "kyc", lc "verify", lc "blocked", lc "lottery",
   lc "prize", lc "winner", lc "urgent", lc "urgently", lc "immediate",
   lc "immediately", lc "suspend", lc "suspended",
   lc "electricity", lc "disconnect", lc "customs", lc "gift",
   lc "turant", lc "jaldi", lc "abhi", lc "warna", lc "aaj",
   lc "band ho jayega", lc "account band", lc "freeze", lc "frozen",
   lc "otp bhejo", lc "otp send", lc "kyc update", lc "verify karo",
   lc "link kholo", lc "verify account", lc "verify your account",
   lc "update kyc", lc "refund", lc "cashback", lc "reward", lc "inaam",
   lc "prize", lc "collect request"]

/-- `ScamDetector.medium_risk_keywords`. -/
def mediumRiskKeywords : List (List Char) :=
  [lc "update", lc "pan", lc "aadhar", lc "link", lc "click",
   lc "manager", lc "bank", lc "account", lc "credit", lc "debit",
   lc "upi id", lc "paise"]

/-- `ScamDetector.negative_keywords`. -/
def negativeKeywords : List (List Char) :=
  [lc "thank you", lc "ok", lc "yes", lc "no", lc "hello", lc "hi",
   lc "meeting", lc "project", lc "assignment"]

/-- `ScamDetector.shorteners`, the raw-substring check list. -/
def scamShorteners : List (List Char) :=
  [lc "bit.ly/", lc "tinyurl.com/", lc "t.co/", lc "rb.gy/", lc "is.gd/",
   lc "goo.gl/"]

/-- one keyword matches when it is a substring of the normalized text and is
either a multi-word phrase or a full token. -/
def kwMatched (normalized : List Char) (tokens : List (List Char)) (kw : List Char) : Bool :=
  containsSub normalized kw && (kw.contains ' ' || tokens.contains kw)

/-- the high-risk keywords matched by a text. -/
def matchedHighOf (text : List Char) : List (List Char) :=
  highRiskKeywords.filter (kwMatched (normalizeText text) (tokenize (normalizeText text)))

/-- the medium-risk keywords matched by a text. -/
def matchedMedOf (text : List Char) : List (List Char) :=
  mediumRiskKeywords.filter (kwMatched (normalizeText text) (tokenize (normalizeText text)))

/-- the `matched_keywords` set accumulated by `calculate_text_score`. -/
def matchedKeywords (text : List Char) : List (List Char) :=
  matchedHighOf text ++ matchedMedOf text

/-- `ScamDetector._has_shortener`. -/
def hasShortScam (cs : List Char) : Bool :=
  scamShorteners.any (fun s => containsSub cs s)

/-- integer minimum as an if-then-else (Python `min`). -/
def pyMinI (a b : Int) : Int := if a ≤ b then a else b

/-- integer maximum as an if-then-else (Python `max`). -/
def pyMaxI (a b : Int) : Int := if a ≤ b then b else a

/-- `ScamDetector.calculate_text_score`: returns
`(score, has_strong_evidence, has_any_evidence)`.

Every score the source manipulates is an exact multiple of 0.01 (the
literals are 0.22, 0.10, 0.70, 0.15, 0.18, 0.0), so the per-text score is
represented exactly as an integer count of hundredths: `22` stands for the
source's `0.22`, and the rational value of a score `n` is `n / 100`
(`scoreQ`). -/
def calculate_text_score (text : List Char) : Int × Bool × Bool :=
  let normalized := normalizeText text
  let tokens := tokenize normalized
  let mh := highRiskKeywords.filter (kwMatched normalized tokens)
  let mm := mediumRiskKeywords.filter (kwMatched normalized tokens)
  let keywordScore : Int := 22 * mh.length + 10 * mm.length
  let s1 : Int := pyMinI keywordScore 70
  let hasUrl := !(extract_urls text).isEmpty || hasShortScam normalized
  let s2 := s1 + (if hasUrl then (22 : Int) else 0)
  let hasPhone := !(extract_phone_numbers text).isEmpty
  let s3 := s2 + (if hasPhone then (15 : Int) else 0)
  let hasUpi := !(extract_upi text).isEmpty
  let s4 := s3 + (if hasUpi then (18 : Int) else 0)
  let strong := hasUrl || hasPhone || hasUpi || !mh.isEmpty
  let negCount := (negativeKeywords.filter (fun k => tokens.contains k)).length
  let s5 := if strong then s4 else s4 - 15 * negCount
  (pyMaxI 0 s5, strong, strong || decide (0 < keywordScore))

/-- the rational value of a per-text score. -/
def scoreQ (text : List Char) : ℚ := ((calculate_text_score text).1 : ℚ) / 100

/-- `Settings.SCAM_THRESHOLD`, at its configured default `0.65`. -/
def SCAM_THRESHOLD : ℚ := 65 / 100

/-- `ScamDetector.check_scam`: returns `(is_scam, confidence_score)`.

The combination `current + 0.5 * history` is an exact multiple of 0.005, so
the confidence is represented exactly as an integer count of
half-hundredths: with per-text scores in hundredths, it is
`2 * current + history`, the source's `0.99` is `198`, the threshold `0.65`
is `130` and `0.75` is `150`. The rational value of a confidence `n` is
`n / 200` (`confidenceQ`). -/
def check_scam (messageText historyText : List Char) : Bool × Int :=
  let cur := calculate_text_score messageText
  let hist := calculate_text_score historyText
  let total := pyMinI (2 * cur.1 + hist.1) 198
  let isScam :=
    if cur.2.1 && decide (130 ≤ total) then true
    else if hist.2.2 && decide (150 ≤ total) then true
    else false
  (isScam, total)

/-- the rational value of a combined confidence score. -/
def confidenceQ (messageText historyText : List Char) : ℚ :=
  ((check_scam messageText historyText).2 : ℚ) / 200

/-! ## Data model (`app/models.py`) and instants

Instants are integers; `datetime.isoformat` is modelled as decimal rendering
and `datetime.fromisoformat` as decimal parsing, so the round trip behaves
as in the source for every value the program itself writes. -/

/-- message sender (`Sender` enum). -/
inductive Sender
  | scammer
  | user
deriving DecidableEq, BEq

/-- the string value of a `Sender` (its enum value). -/
def senderStr : Sender → List Char
  | Sender.scammer => lc "scammer"
  | Sender.user => lc "user"

/-- a parsed conversational turn (`Message`). -/
structure Msg where
  sender : Sender
  text : List Char
  timestamp : Int
deriving DecidableEq

/-- decimal digits to a number. -/
def natOfDigits (cs : List Char) : Option Nat :=
  if cs.isEmpty then none
  else if cs.all Char.isDigit then
    some (cs.foldl (fun a c => 10 * a + (c.toNat - 48)) 0)
  else none

/-- model of `datetime.isoformat` on integer instants. -/
def isoOfInt (t : Int) : List Char := lc (toString t)

/-- model of `datetime.fromisoformat` on integer instants. -/
def intOfIso (cs : List Char) : Option Int :=
  match cs with
  | '-' :: rest => (natOfDigits rest).map (fun n => -(n : Int))
  | _ => (natOfDigits cs).map (fun n => (n : Int))

/-- a stored timestamp: an ISO string or an already-parsed instant. -/
inductive TsRaw
  | str : List Char → TsRaw
  | dt : Int → TsRaw
deriving DecidableEq

/-- a record of `internalHistory` as the store keeps it
(`{"sender": ..., "text": ..., "timestamp": ...}`). -/
structure RawRec where
  sender : List Char
  text : List Char
  timestamp : TsRaw
deriving DecidableEq

/-- coercion `Sender(m["sender"])`: raises (here: `none`) off the enum. -/
def senderOfStr (s : List Char) : Option Sender :=
  if s == lc "scammer" then some Sender.scammer
  else if s == lc "user" then some Sender.user
  else none

/-! ## History reconciliation (`app/store.py`) -/

/-- conversion of one stored record into a `Message`; `none` models the
`except: continue` skip of an unparseable record. `parseIso` is the external
`datetime.fromisoformat`. -/
def parseRec (parseIso : List Char → Option Int) (r : RawRec) : Option Msg :=
  match senderOfStr r.sender with
  | none => none
  | some sd =>
    match r.timestamp with
    | TsRaw.str s => (parseIso s).map (fun t => { sender := sd, text := r.text, timestamp := t })
    | TsRaw.dt t => some { sender := sd, text := r.text, timestamp := t }

/-- the dedupe key of `get_combined_history`:
(sender string, trimmed lower-cased text, ISO timestamp). With injective
`isoformat` this is the triple below. -/
def dedupeKey (m : Msg) : Sender × List Char × Int :=
  (m.sender, lowerC (stripC m.text), m.timestamp)

/-- add one message unless its key was already seen. -/
def dedupeAdd (acc : List Msg × List (Sender × List Char × Int)) (m : Msg) :
    List Msg × List (Sender × List Char × Int) :=
  if acc.2.contains (dedupeKey m) then acc
  else (acc.1 ++ [m], acc.2 ++ [dedupeKey m])

/-- stable insertion by ascending timestamp (after existing equal keys). -/
def insertByTs (m : Msg) : List Msg → List Msg
  | [] => [m]
  | x :: xs => if m.timestamp < x.timestamp then m :: x :: xs else x :: insertByTs m xs

/-- stable ascending sort by timestamp (`list.sort(key=lambda x: x.timestamp)`). -/
def sortByTs (l : List Msg) : List Msg := l.foldl (fun acc m => insertByTs m acc) []

/-- `InMemorySessionStore.get_combined_history` on the session's stored
internal records and the caller's platform history: parse internal records
(skipping failures), dedupe with platform history first, sort by timestamp. -/
def inMemoryCombinedHistory (parseIso : List Char → Option Int)
    (internal : List RawRec) (platform : List Msg) : List Msg :=
  let internalMsgs := internal.filterMap (parseRec parseIso)
  let afterPlatform := platform.foldl dedupeAdd ([], [])
  let afterInternal := internalMsgs.foldl dedupeAdd afterPlatform
  sortByTs afterInternal.1

/-- `RedisSessionStore.get_combined_history` on the same inputs: parse
internal records (skipping failures), dedupe with platform history first,
sort by timestamp. -/
def redisCombinedHistory (parseIso : List Char → Option Int)
    (internal : List RawRec) (platform : List Msg) : List Msg :=
  let internalMsgs := internal.filterMap (parseRec parseIso)
  let afterPlatform := platform.foldl dedupeAdd ([], [])
  let afterInternal := internalMsgs.foldl dedupeAdd afterPlatform
  sortByTs afterInternal.1

/-! ## Session state and completion (`app/utils.py`, `app/main.py`) -/

/-- the five `extractedIntelligence` categories. Python keeps them as
de-duplicated lists built from sets (whose order is unspecified), so every
property about them is stated at the level of membership. -/
structure Intel where
  bankAccounts : List (List Char)
  upiIds : List (List Char)
  phishingLinks : List (List Char)
  phoneNumbers : List (List Char)
  suspiciousKeywords : List (List Char)
deriving DecidableEq

/-- `is_intel_found`. -/
def is_intel_found (e : Intel) (highValueOnly : Bool) : Bool :=
  let hasUpi := !e.upiIds.isEmpty
  let hasBank := !e.bankAccounts.isEmpty
  let hasLinks := !e.phishingLinks.isEmpty
  if highValueOnly then hasUpi || hasBank || hasLinks
  else hasUpi || hasBank || hasLinks ||
    !e.phoneNumbers.isEmpty || !e.suspiciousKeywords.isEmpty

/-- the per-session state of `honeypot_endpoint` (`session` dict). -/
structure Session where
  started_at : Int
  totalMessagesExchanged : Nat
  scamDetected : Bool
  callback_sent : Bool
  callback_attempts : Nat
  callback_in_progress : Bool
  next_retry_at : Option Int
  extractedIntelligence : Intel
  internalHistory : List RawRec
  agentNotes : List Char
  last_agent_reply : List Char
deriving DecidableEq

/-- `calculate_engagement_duration` at instant `now` (a future or
unparseable start yields 0). -/
def calculate_engagement_duration (startedAt : Int) (now : Int) : Nat :=
  if now < startedAt then 0 else (now - startedAt).toNat

/-- `check_completion(session, combined_history)` evaluated at instant
`now`: requires `scamDetected` and one of high-value intelligence with at
least 4 logical turns, 8 logical turns, or 300 seconds of engagement. -/
def check_completion (s : Session) (combined : List Msg) (now : Int) : Bool :=
  if !s.scamDetected then false
  else
    let duration := calculate_engagement_duration s.started_at now
    let scammerMsgs := (combined.filter (fun m => m.sender == Sender.scammer)).length
    let agentMsgs := (combined.filter (fun m => m.sender == Sender.user)).length
    let logicalTurns := min scammerMsgs (agentMsgs + 1)
    let highValueFound := is_intel_found s.extractedIntelligence true
    if highValueFound && decide (4 ≤ logicalTurns) then true
    else if decide (8 ≤ logicalTurns) then true
    else if decide (300 ≤ duration) then true
    else false

/-! ## The endpoint's per-request step and the callback task (`app/main.py`) -/

/-- `list(set(existing) | set(incoming))`, as a de-duplicated list. -/
def unionCat (existing incoming : List (List Char)) : List (List Char) :=
  (existing ++ incoming).dedup

/-- the merge of freshly extracted intelligence into the session's
accumulated `extractedIntelligence` (the `ext_key_map` loop). -/
def mergeIntel (cur : Intel) (nw : ExtOut) : Intel :=
  { bankAccounts := unionCat cur.bankAccounts nw.bank
    upiIds := unionCat cur.upiIds nw.upi
    phishingLinks := unionCat cur.phishingLinks nw.links
    phoneNumbers := unionCat cur.phoneNumbers nw.phones
    suspiciousKeywords := unionCat cur.suspiciousKeywords nw.keywords }

/-- the merge of history-derived extraction into the current message's
extraction (`new_intel[key] = list(set(new_intel[key] + history_intel[key]))`). -/
def mergeExtOut (a b : ExtOut) : ExtOut :=
  { upi := unionCat a.upi b.upi
    bank := unionCat a.bank b.bank
    links := unionCat a.links b.links
    phones := unionCat a.phones b.phones
    keywords := unionCat a.keywords b.keywords }

/-- `Extractor.extract_from_messages`: the space-joined message texts run
through the five extractors. -/
def extract_from_messages (msgs : List Msg) : ExtOut :=
  let fullText := (lc " ").intercalate (msgs.map Msg.text)
  { upi := extract_upi fullText
    bank := extract_bank_accounts fullText
    links := extract_urls fullText
    phones := extract_phone_numbers fullText
    keywords := extract_keywords fullText }

/-- the fresh session created on first contact. -/
def initSession (now : Int) : Session :=
  { started_at := now
    totalMessagesExchanged := 0
    scamDetected := false
    callback_sent := false
    callback_attempts := 0
    callback_in_progress := false
    next_retry_at := none
    extractedIntelligence :=
      { bankAccounts := [], upiIds := [], phishingLinks := [],
        phoneNumbers := [], suspiciousKeywords := [] }
    internalHistory := []
    agentNotes := []
    last_agent_reply := [] }

/-- the externally supplied parts of one request: the wall clock, the
normalized incoming message, the normalized platform history, and the reply
produced by the external reply generator. -/
structure ReqInput where
  now : Int
  text : List Char
  msgTs : Int
  history : List Msg
  agentReply : List Char
  agentReplyTs : Int
deriving DecidableEq

/-- the `agentNotes` string built after a reply
(`"{base_notes} | nextReply: {agent_reply_text}".strip()`). -/
def buildNotes (highValue : Bool) (reply : List Char) : List Char :=
  let baseNotes := lc "Scam detected." ++
    (if highValue then lc " High-value intelligence extracted." else [])
  stripC (baseNotes ++ lc " | nextReply: " ++ reply)

/-- one pass of `honeypot_endpoint` over a session (`none` = unseen id):
record the incoming message, merge extraction, run detection once, record
the agent reply when engaged, and evaluate the completion/callback gate.
Returns the saved session and whether a callback dispatch was started. -/
def processRequest (s? : Option Session) (i : ReqInput) : Session × Bool :=
  let s0 := match s? with
    | none => initSession i.now
    | some s => s
  let inRec : RawRec :=
    { sender := lc "scammer", text := i.text, timestamp := TsRaw.str (isoOfInt i.msgTs) }
  let s1 := { s0 with
    internalHistory := s0.internalHistory ++ [inRec],
    totalMessagesExchanged := s0.totalMessagesExchanged + 1 }
  let combined := inMemoryCombinedHistory intOfIso s1.internalHistory i.history
  let historyText := (lc "\n").intercalate (combined.map Msg.text)
  let newIntel0 := extract_from_text i.text
  let newIntel := if combined.isEmpty then newIntel0
    else mergeExtOut newIntel0 (extract_from_messages combined)
  let s2 := { s1 with
    extractedIntelligence := mergeIntel s1.extractedIntelligence newIntel }
  let s3 := if s2.scamDetected then s2
    else if (check_scam i.text historyText).1 then { s2 with scamDetected := true }
    else s2
  let s4 := if s3.scamDetected then
      { s3 with
        internalHistory := s3.internalHistory ++
          [{ sender := lc "user", text := i.agentReply,
             timestamp := TsRaw.str (isoOfInt i.agentReplyTs) }],
        totalMessagesExchanged := s3.totalMessagesExchanged + 1,
        last_agent_reply := i.agentReply,
        agentNotes := buildNotes (is_intel_found s3.extractedIntelligence true) i.agentReply }
    else s3
  let combined2 := if s3.scamDetected then
      inMemoryCombinedHistory intOfIso s4.internalHistory i.history
    else combined
  let canRetry := match s4.next_retry_at with
    | none => true
    | some t => !decide (i.now < t)
  let dispatch := s4.scamDetected && !s4.callback_sent && !s4.callback_in_progress &&
    canRetry && check_completion s4 combined2 i.now
  let s5 := if dispatch then { s4 with callback_in_progress := true } else s4
  (s5, dispatch)

/-- the outcome the external callback sender reports to
`background_callback_wrapper`: success, failure, or a raised exception. -/
inductive CbOutcome
  | ok
  | fail
  | crash
deriving DecidableEq

/-- `background_callback_wrapper` applied when the callback resolves at
instant `now`: success commits `callback_sent`; failure counts the attempt
and, from the third failure on, sets `next_retry_at = now + 60`; a raised
exception only clears `callback_in_progress`. -/
def backgroundCallback (s : Session) (o : CbOutcome) (now : Int) : Session :=
  match o with
  | CbOutcome.ok => { s with callback_in_progress := false, callback_sent := true }
  | CbOutcome.fail =>
    let s1 := { s with
      callback_in_progress := false
      callback_attempts := s.callback_attempts + 1 }
    if 3 ≤ s1.callback_attempts then { s1 with next_retry_at := some (now + 60) }
    else s1
  | CbOutcome.crash => { s with callback_in_progress := false }

/-- an event on one session: an inbound request, or the completion of a
dispatched background callback. -/
inductive Ev
  | req : ReqInput → Ev
  | cb : CbOutcome → Int → Ev

/-- one event step; the boolean marks a new callback dispatch. -/
def stepEv (s : Session) : Ev → Session × Bool
  | Ev.req i => processRequest (some s) i
  | Ev.cb o n => (backgroundCallback s o n, false)

/-- run a sequence of events over one session. -/
def runTrace (s : Session) : List Ev → Session
  | [] => s
  | e :: es => runTrace (stepEv s e).1 es

/-- how many callback dispatches a sequence of events starts. -/
def dispatchCount (s : Session) : List Ev → Nat
  | [] => 0
  | e :: es => (if (stepEv s e).2 then 1 else 0) + dispatchCount (stepEv s e).1 es

/-- pointwise containment of the five intelligence categories. -/
def intelLe (a b : Intel) : Prop :=
  a.bankAccounts ⊆ b.bankAccounts ∧ a.upiIds ⊆ b.upiIds ∧
  a.phishingLinks ⊆ b.phishingLinks ∧ a.phoneNumbers ⊆ b.phoneNumbers ∧
  a.suspiciousKeywords ⊆ b.suspiciousKeywords

/-! ## Concrete fixtures used by the scenario parts of the claims -/

/-- a transcript with `sc` counterpart turns and `ag` agent turns. -/
def turnsHist (sc ag : Nat) : List Msg :=
  (List.range sc).map
    (fun k => { sender := Sender.scammer, text := lc "hi", timestamp := (k : Int) }) ++
  (List.range ag).map
    (fun k => { sender := Sender.user, text := lc "re", timestamp := (k : Int) })

/-- a detected-scam session holding one extracted UPI handle. -/
def exSessionUpi : Session :=
  { initSession 0 with
    scamDetected := true
    extractedIntelligence :=
      { bankAccounts := [], upiIds := [lc "scammer@ybl"], phishingLinks := [],
        phoneNumbers := [], suspiciousKeywords := [] } }

/-- a session whose completion callback has already been committed. -/
def exSessionSent : Session :=
  { exSessionUpi with callback_sent := true }

/-- a few subsequent events on a session: another request, then a failed and
a successful callback resolution. -/
def exEventsSent : List Ev :=
  [Ev.req { now := 400, text := lc "send otp", msgTs := 400, history := [],
            agentReply := lc "ok", agentReplyTs := 401 },
   Ev.cb CbOutcome.fail 402,
   Ev.cb CbOutcome.ok 403]

/-! ## Helper lemmas -/

theorem mem_unionCat {a b : List (List Char)} {x : List Char} :
    x ∈ unionCat a b ↔ x ∈ a ∨ x ∈ b := by
  simp [unionCat]

theorem subset_unionCat_left (a b : List (List Char)) : a ⊆ unionCat a b :=
  fun _ hx => mem_unionCat.mpr (Or.inl hx)

theorem card_le_of_subset {l l' : List (List Char)} (h : l ⊆ l') :
    l.toFinset.card ≤ l'.toFinset.card :=
  Finset.card_le_card (fun a ha => by
    rw [List.mem_toFinset] at *
    exact h ha)

theorem intelLe_refl (a : Intel) : intelLe a a :=
  ⟨fun _ hx => hx, fun _ hx => hx, fun _ hx => hx, fun _ hx => hx, fun _ hx => hx⟩

theorem intelLe_trans {a b c : Intel} (h1 : intelLe a b) (h2 : intelLe b c) :
    intelLe a c :=
  ⟨h1.1.trans h2.1, h1.2.1.trans h2.2.1, h1.2.2.1.trans h2.2.2.1,
   h1.2.2.2.1.trans h2.2.2.2.1, h1.2.2.2.2.trans h2.2.2.2.2⟩

theorem intelLe_merge (a : Intel) (nw : ExtOut) : intelLe a (mergeIntel a nw) :=
  ⟨subset_unionCat_left _ _, subset_unionCat_left _ _, subset_unionCat_left _ _,
   subset_unionCat_left _ _, subset_unionCat_left _ _⟩

theorem processRequest_fields (s : Session) (i : ReqInput) :
    (processRequest (some s) i).1.callback_sent = s.callback_sent ∧
    (processRequest (some s) i).1.next_retry_at = s.next_retry_at ∧
    (processRequest (some s) i).1.started_at = s.started_at := by
  unfold processRequest
  simp only [apply_ite Session.callback_sent, apply_ite Session.next_retry_at,
    apply_ite Session.started_at]
  simp

theorem processRequest_no_dispatch_of_sent (s : Session) (i : ReqInput)
    (h : s.callback_sent = true) : (processRequest (some s) i).2 = false := by
  unfold processRequest
  simp only [apply_ite Session.callback_sent]
  simp [h]

theorem processRequest_no_dispatch_of_retry (s : Session) (i : ReqInput) (t : Int)
    (h : s.next_retry_at = some t) (hn : i.now < t) : (processRequest (some s) i).2 = false := by
  unfold processRequest
  simp only [apply_ite Session.next_retry_at]
  simp [h, hn]

theorem backgroundCallback_sent (s : Session) (o : CbOutcome) (n : Int)
    (h : s.callback_sent = true) : (backgroundCallback s o n).callback_sent = true := by
  cases o <;> simp [backgroundCallback, apply_ite Session.callback_sent, h]

theorem processRequest_intel (s : Session) (i : ReqInput) :
    ∃ nw, (processRequest (some s) i).1.extractedIntelligence =
      mergeIntel s.extractedIntelligence nw := by
  unfold processRequest
  simp only [apply_ite Session.extractedIntelligence]
  simp

theorem backgroundCallback_intel (s : Session) (o : CbOutcome) (n : Int) :
    (backgroundCallback s o n).extractedIntelligence = s.extractedIntelligence := by
  cases o <;> simp [backgroundCallback, apply_ite Session.extractedIntelligence]

theorem stepEv_intelLe (s : Session) (e : Ev) :
    intelLe s.extractedIntelligence (stepEv s e).1.extractedIntelligence := by
  cases e with
  | req i =>
    obtain ⟨nw, hnw⟩ := processRequest_intel s i
    exact hnw ▸ intelLe_merge _ _
  | cb o n =>
    exact (backgroundCallback_intel s o n).symm ▸ intelLe_refl _

theorem runTrace_intelLe (evs : List Ev) (s : Session) :
    intelLe s.extractedIntelligence (runTrace s evs).extractedIntelligence := by
  induction evs generalizing s with
  | nil => exact intelLe_refl _
  | cons e es ih => exact intelLe_trans (stepEv_intelLe s e) (ih (stepEv s e).1)

theorem textScore_nonneg (t : List Char) : 0 ≤ (calculate_text_score t).1 := by
  unfold calculate_text_score pyMaxI
  dsimp only
  split <;> omega

theorem pyMinI_eq_min (a b : Int) : pyMinI a b = min a b := (min_def a b).symm

theorem boolIteChain (a b : Bool) :
    (if a = true then true else if b = true then true else false) = (a || b) := by
  cases a <;> cases b <;> simp

theorem check_scam_snd (m h : List Char) :
    (check_scam m h).2 = min (2 * (calculate_text_score m).1 + (calculate_text_score h).1) 198 := by
  unfold check_scam
  exact pyMinI_eq_min _ _

theorem check_scam_fst (m h : List Char) :
    (check_scam m h).1 =
      (((calculate_text_score m).2.1 && decide (130 ≤ (check_scam m h).2)) ||
       ((calculate_text_score h).2.2 && decide (150 ≤ (check_scam m h).2))) := by
  conv_lhs => unfold check_scam
  exact boolIteChain _ _

theorem confQ_le_iff (m h : List Char) (k : Int) :
    ((k : ℚ) / 200 ≤ confidenceQ m h) ↔ k ≤ (check_scam m h).2 := by
  unfold confidenceQ
  rw [div_le_div_iff_of_pos_right (by norm_num : (0:ℚ) < 200)]
  exact_mod_cast Iff.rfl

theorem toLower_idem (c : Char) : c.toLower.toLower = c.toLower := by
  by_cases h : c.toNat ≥ 65 ∧ c.toNat ≤ 90
  · have h1 : c.toLower = Char.ofNat (c.toNat + 32) := by
      rw [show c.toLower = if c.toNat ≥ 65 ∧ c.toNat ≤ 90 then Char.ofNat (c.toNat + 32) else c
        from rfl, if_pos h]
    have hval : Nat.isValidChar (c.toNat + 32) := Or.inl (by omega)
    have hv : (Char.ofNat (c.toNat + 32)).toNat = c.toNat + 32 := by
      rw [Char.ofNat, dif_pos hval]
      rfl
    rw [h1, show (Char.ofNat (c.toNat + 32)).toLower =
      if (Char.ofNat (c.toNat + 32)).toNat ≥ 65 ∧ (Char.ofNat (c.toNat + 32)).toNat ≤ 90 then
        Char.ofNat ((Char.ofNat (c.toNat + 32)).toNat + 32)
      else Char.ofNat (c.toNat + 32) from rfl, hv, if_neg (by omega)]
  · have h1 : c.toLower = c := by
      rw [show c.toLower = if c.toNat ≥ 65 ∧ c.toNat ≤ 90 then Char.ofNat (c.toNat + 32) else c
        from rfl, if_neg h]
    rw [h1, h1]

theorem splitStr_ne_nil (sep : Char) : ∀ (cs : List Char), splitStr sep cs ≠ []
  | [] => by simp [splitStr]
  | c :: rest => by
    simp only [splitStr]
    split <;> simp

theorem mem_splitStr {sep : Char} :
    ∀ {cs p : List Char}, p ∈ splitStr sep cs → ∀ {c}, c ∈ p → c ∈ cs := by
  intro cs
  induction cs with
  | nil =>
    intro p hp c hc
    simp [splitStr] at hp
    subst hp
    simp at hc
  | cons c0 rest ih =>
    intro p hp c hc
    simp only [splitStr] at hp
    split at hp
    · rcases List.mem_cons.mp hp with h | h
      · subst h
        simp at hc
      · exact List.mem_cons_of_mem _ (ih h hc)
    · rcases List.mem_cons.mp hp with h | h
      · subst h
        rcases List.mem_cons.mp hc with h' | h'
        · exact h' ▸ List.mem_cons_self _ _
        · have hhead : (splitStr sep rest).headD [] ∈ splitStr sep rest := by
            cases hsp : splitStr sep rest with
            | nil => exact absurd hsp (splitStr_ne_nil sep rest)
            | cons q qs => simp
          exact List.mem_cons_of_mem _ (ih hhead h')
      · have : p ∈ splitStr sep rest := List.mem_of_mem_tail h
        exact List.mem_cons_of_mem _ (ih this hc)

theorem mem_lowerC_toLower {xs : List Char} {c : Char} (h : c ∈ lowerC xs) :
    c.toLower = c := by
  obtain ⟨a, _, rfl⟩ := List.mem_map.mp h
  exact toLower_idem a

theorem stripC_subset (xs : List Char) : stripC xs ⊆ xs := by
  intro c hc
  unfold stripC at hc
  rw [List.mem_reverse] at hc
  have h1 := (List.dropWhile_sublist (l := (xs.dropWhile isSpaceC).reverse) (p := isSpaceC)).subset hc
  rw [List.mem_reverse] at h1
  exact (List.dropWhile_sublist (l := xs) (p := isSpaceC)).subset h1

theorem stripTrailDotDash_subset (xs : List Char) : stripTrailDotDash xs ⊆ xs := by
  unfold stripTrailDotDash
  split
  · exact (List.dropLast_sublist _).subset
  · exact (List.dropLast_sublist _).subset
  · exact fun _ h => h

theorem lowerC_fixed_of {xs : List Char} (h : ∀ c ∈ xs, c.toLower = c) :
    lowerC xs = xs := by
  induction xs with
  | nil => rfl
  | cons a l ih =>
    have h1 := h a (List.mem_cons_self a l)
    have h2 := ih fun c hc => h c (List.mem_cons_of_mem a hc)
    show Char.toLower a :: lowerC l = a :: l
    rw [h1, h2]

/-- C6: for every text input, no string returned by `extract_upi` has a
domain (the part after the `@`) whose first label (the part before the
domain's first dot) is one of the configured generic email providers. -/
theorem extract_upi_rejects_email_providers :
    emailProviders = [lc "gmail", lc "yahoo", lc "outlook", lc "hotmail",
      lc "icloud", lc "protonmail", lc "zoho", lc "yandex", lc "live"] ∧
    ∀ (text : List Char),
      (extract_upi text).all
        (fun u => !emailProviders.contains
          ((splitStr '.' ((splitStr '@' u).getD 1 [])).headD [])) = true := by
  refine ⟨rfl, fun text => ?_⟩
  rw [List.all_eq_true]
  intro u hu
  rw [extract_upi, List.mem_dedup, List.mem_filterMap] at hu
  obtain ⟨cand, _, hchk⟩ := hu
  unfold upiCheck at hchk
  simp only at hchk
  split at hchk
  case isFalse => exact absurd hchk (by simp)
  case isTrue hlen =>
    split at hchk
    case isTrue => exact absurd hchk (by simp)
    case isFalse hprov =>
      have hlow : ∀ c ∈ stripTrailDotDash (stripC (lowerC cand)), c.toLower = c := by
        intro c hc
        exact mem_lowerC_toLower (stripC_subset _ (stripTrailDotDash_subset _ hc))
      have hu_eq : u = stripTrailDotDash (stripC (lowerC cand)) := by
        split at hchk
        · exact (Option.some_inj.mp hchk).symm
        · split at hchk
          · exact (Option.some_inj.mp hchk).symm
          · cases hchk
      subst hu_eq
      have hlen' : (splitStr '@' (stripTrailDotDash (stripC (lowerC cand)))).length = 2 := by
        simpa using hlen
      obtain ⟨a, b, hab⟩ := List.length_eq_two.mp hlen'
      rw [hab] at hprov ⊢
      have hb : lowerC b = b := by
        apply lowerC_fixed_of
        intro c hc
        apply hlow
        exact mem_splitStr (hab ▸ (by simp : b ∈ [a, b])) hc
      simp only [List.getD_cons_succ, List.getD_cons_zero] at hprov ⊢
      rw [hb] at hprov
      simpa using hprov

theorem wordTokensF_fuel :
    ∀ (f g : Nat) (cs : List Char), cs.length ≤ f → cs.length ≤ g →
      wordTokensF f cs = wordTokensF g cs := by
  intro f
  induction f with
  | zero =>
    intro g cs hf _
    have : cs = [] := List.length_eq_zero.mp (Nat.le_zero.mp hf)
    subst this
    cases g <;> rfl
  | succ f ih =>
    intro g cs hf hg
    cases cs with
    | nil => cases g <;> rfl
    | cons c rest =>
      cases g with
      | zero => exact absurd hg (by simp)
      | succ g =>
        have hf' : rest.length ≤ f := by simpa using hf
        have hg' : rest.length ≤ g := by simpa using hg
        have hdw : (rest.dropWhile isWordC).length ≤ rest.length :=
          (List.dropWhile_sublist (l := rest) (p := isWordC)).length_le
        simp only [wordTokensF]
        split
        next h =>
          rw [List.dropWhile_cons_of_pos h]
          rw [ih g _ (le_trans hdw hf') (le_trans hdw hg')]
        next h =>
          rw [ih g rest hf' hg']

theorem wordTokens_nil : wordTokens [] = [] := rfl

theorem wordTokens_cons (c : Char) (rest : List Char) :
    wordTokens (c :: rest) =
      if isWordC c then
        (c :: rest).takeWhile isWordC :: wordTokens ((c :: rest).dropWhile isWordC)
      else wordTokens rest := by
  show wordTokensF (c :: rest).length (c :: rest) = _
  rw [show (c :: rest).length = rest.length + 1 from rfl]
  simp only [wordTokensF]
  split
  next h =>
    rw [List.dropWhile_cons_of_pos h]
    have hdw : (rest.dropWhile isWordC).length ≤ rest.length :=
      (List.dropWhile_sublist (l := rest) (p := isWordC)).length_le
    rw [wordTokensF_fuel rest.length (rest.dropWhile isWordC).length _ hdw (Nat.le_refl _)]
    rfl
  next h => rfl

theorem bankScanF_fuel :
    ∀ (f g : Nat) (prev : Option Char) (cs : List Char), cs.length ≤ f → cs.length ≤ g →
      bankScanF f prev cs = bankScanF g prev cs := by
  intro f
  induction f with
  | zero =>
    intro g prev cs hf _
    have : cs = [] := List.length_eq_zero.mp (Nat.le_zero.mp hf)
    subst this
    cases g <;> rfl
  | succ f ih =>
    intro g prev cs hf hg
    cases cs with
    | nil => cases g <;> rfl
    | cons c rest =>
      cases g with
      | zero => exact absurd hg (by simp)
      | succ g =>
        have hf' : rest.length ≤ f := by simpa using hf
        have hg' : rest.length ≤ g := by simpa using hg
        simp only [bankScanF]
        split
        next h =>
          have h9 : 9 ≤ ((c :: rest).takeWhile isDigitC).length := by
            simp only [Bool.and_eq_true, decide_eq_true_eq] at h
            exact h.1.1.2
          have hlen : ((c :: rest).drop ((c :: rest).takeWhile isDigitC).length).length ≤ rest.length := by
            rw [List.length_drop]
            simp only [List.length_cons]
            omega
          rw [ih g _ _ (le_trans hlen hf') (le_trans hlen hg')]
        next h =>
          rw [ih g _ rest hf' hg']

theorem bankScanGo_nil (prev : Option Char) : bankScanGo prev [] = [] := rfl

theorem bankScanGo_cons (prev : Option Char) (c : Char) (rest : List Char) :
    bankScanGo prev (c :: rest) =
      (if !isWPrev prev && isDigitC c &&
          !((c == '6' || c == '7' || c == '8' || c == '9') &&
            ((c :: rest).takeWhile isDigitC).length == 10 &&
            (match (c :: rest).drop ((c :: rest).takeWhile isDigitC).length with
             | [] => true
             | a :: _ => !isWordC a)) &&
          decide (9 ≤ ((c :: rest).takeWhile isDigitC).length) &&
          decide (((c :: rest).takeWhile isDigitC).length ≤ 18) &&
          (match (c :: rest).drop ((c :: rest).takeWhile isDigitC).length with
           | [] => true
           | a :: _ => !isWordC a) then
        (c :: rest).takeWhile isDigitC ::
          bankScanGo (some (((c :: rest).takeWhile isDigitC).getLastD c))
            ((c :: rest).drop ((c :: rest).takeWhile isDigitC).length)
      else bankScanGo (some c) rest) := by
  show bankScanF (rest.length + 1) prev (c :: rest) = _
  simp only [bankScanF]
  split
  next h =>
    have h9 : 9 ≤ ((c :: rest).takeWhile isDigitC).length := by
      simp only [Bool.and_eq_true, decide_eq_true_eq] at h
      exact h.1.1.2
    have hlen : ((c :: rest).drop ((c :: rest).takeWhile isDigitC).length).length ≤ rest.length := by
      rw [List.length_drop]
      simp only [List.length_cons]
      omega
    rw [bankScanF_fuel rest.length ((c :: rest).drop ((c :: rest).takeWhile isDigitC).length).length
      _ _ hlen (Nat.le_refl _)]
    rfl
  next h => rfl

theorem digit_isWord {c : Char} (h : isDigitC c = true) : isWordC c = true := by
  simp [isDigitC] at h
  simp [isWordC, Char.isAlphanum, h]

theorem drop_len_takeWhile (p : Char → Bool) :
    ∀ (l : List Char), l.drop (l.takeWhile p).length = l.dropWhile p := by
  intro l
  induction l with
  | nil => rfl
  | cons a t ih =>
    by_cases h : p a
    · rw [List.takeWhile_cons_of_pos h, List.dropWhile_cons_of_pos h]
      simpa using ih
    · rw [List.takeWhile_cons_of_neg (by simpa using h), List.dropWhile_cons_of_neg (by simpa using h)]
      rfl

theorem takeWhile_word_split :
    ∀ (l : List Char), l.takeWhile isWordC =
      l.takeWhile isDigitC ++ (l.dropWhile isDigitC).takeWhile isWordC := by
  intro l
  induction l with
  | nil => rfl
  | cons a t ih =>
    by_cases h : isDigitC a
    · rw [List.takeWhile_cons_of_pos h, List.dropWhile_cons_of_pos h,
        List.takeWhile_cons_of_pos (digit_isWord h), ih]
      rfl
    · rw [List.takeWhile_cons_of_neg (p := isDigitC) (by simpa using h),
        List.dropWhile_cons_of_neg (p := isDigitC) (by simpa using h)]
      rfl

theorem dropWhile_word_split :
    ∀ (l : List Char), l.dropWhile isWordC = (l.dropWhile isDigitC).dropWhile isWordC := by
  intro l
  induction l with
  | nil => rfl
  | cons a t ih =>
    by_cases h : isDigitC a
    · rw [List.dropWhile_cons_of_pos h, List.dropWhile_cons_of_pos (digit_isWord h), ih]
    · rw [List.dropWhile_cons_of_neg (p := isDigitC) (by simpa using h)]

theorem head_dropWhile_false (p : Char → Bool) :
    ∀ (l : List Char) {a : Char} {t : List Char}, l.dropWhile p = a :: t → p a = false := by
  intro l
  induction l with
  | nil => intro a t h; cases h
  | cons b bt ih =>
    intro a t h
    by_cases hb : p b
    · rw [List.dropWhile_cons_of_pos hb] at h
      exact ih h
    · rw [List.dropWhile_cons_of_neg (by simpa using hb)] at h
      cases h
      simpa using hb

theorem all_takeWhile (p : Char → Bool) :
    ∀ (l : List Char), (l.takeWhile p).all p = true := by
  intro l
  induction l with
  | nil => rfl
  | cons a t ih =>
    by_cases h : p a
    · rw [List.takeWhile_cons_of_pos h]
      simp [h, ih]
    · rw [List.takeWhile_cons_of_neg (by simpa using h)]
      rfl

theorem getLastD_digit_word {c : Char} {tl : List Char}
    (hall : ((c :: tl).takeWhile isDigitC).all isDigitC = true)
    (hd : isDigitC c = true) :
    isWordC (((c :: tl).takeWhile isDigitC).getLastD c) = true := by
  have hmem : ((c :: tl).takeWhile isDigitC).getLastD c ∈ c :: (c :: tl).takeWhile isDigitC :=
    List.getLastD_mem_cons _ _
  rcases List.mem_cons.mp hmem with h | h
  · rw [h]
    exact digit_isWord hd
  · rw [List.all_eq_true] at hall
    exact digit_isWord (hall _ h)

theorem bool_run_identity (L : Nat) (E : Bool) :
    (!(E && (L == 10)) && decide (9 ≤ L) && decide (L ≤ 18)) =
    (decide (9 ≤ L) && decide (L ≤ 18) && !(decide (L = 10) && E)) := by
  cases E
  · simp
  · by_cases h10 : L = 10
    · subst h10
      simp
    · have hb : (L == 10) = false := by simpa using h10
      simp [hb, h10]

theorem bankScan_eq_tokens :
    ∀ (n : Nat) (cs : List Char), cs.length ≤ n → ∀ (prev : Option Char),
      bankScanGo prev cs =
        (if isWPrev prev = true then wordTokens (cs.dropWhile isWordC)
         else wordTokens cs).filter isBankRun := by
  intro n
  induction n with
  | zero =>
    intro cs h prev
    rw [List.length_eq_zero.mp (Nat.le_zero.mp h)]
    cases hp : isWPrev prev <;> simp [bankScanGo_nil, wordTokens_nil]
  | succ n ih =>
    intro cs h prev
    cases cs with
    | nil => cases hp : isWPrev prev <;> simp [bankScanGo_nil, wordTokens_nil]
    | cons c rest =>
      have hrest : rest.length ≤ n := by simpa using h
      rw [bankScanGo_cons]
      by_cases hpw : isWPrev prev = true
      · -- a word character precedes: no boundary, so the scanner only advances
        rw [if_neg (by simp [hpw]), if_pos hpw, ih rest hrest (some c)]
        by_cases hw : isWordC c = true
        · rw [List.dropWhile_cons_of_pos hw]
          simp [isWPrev, hw]
        · have hwf : isWordC c = false := by simpa using hw
          have hps : isWPrev (some c) = isWordC c := rfl
          have hpsf : isWPrev (some c) = false := by rw [hps, hwf]
          rw [List.dropWhile_cons_of_neg (by simpa using hw), wordTokens_cons, hpsf]
          rw [if_neg (by simp), if_neg (by simp [hwf])]
      · have hpw' : isWPrev prev = false := by simpa using hpw
        rw [if_neg hpw, wordTokens_cons]
        by_cases hw : isWordC c = true
        case neg =>
          -- c is not a word character: neither a token start nor a digit
          have hd : isDigitC c = false := by
            cases hdc : isDigitC c
            · rfl
            · exact absurd (digit_isWord hdc) (by simpa using hw)
          have hwf : isWordC c = false := by simpa using hw
          rw [if_neg (by simp [hd]), if_neg (by simp [hwf]), ih rest hrest (some c)]
          simp [isWPrev, hwf]
        case pos =>
          rw [if_pos hw, List.dropWhile_cons_of_pos hw]
          by_cases hd : isDigitC c = true
          case neg =>
            -- the token starts with a non-digit word character
            have hdf : isDigitC c = false := by simpa using hd
            have hbr : isBankRun ((c :: rest).takeWhile isWordC) = false := by
              rw [List.takeWhile_cons_of_pos hw]
              simp [isBankRun, hdf]
            rw [if_neg (by simp [hdf]), List.filter_cons, hbr, ih rest hrest (some c)]
            simp [isWPrev, hw]
          case pos =>
            have hA : (c :: rest).drop ((c :: rest).takeWhile isDigitC).length =
                (c :: rest).dropWhile isDigitC := drop_len_takeWhile _ _
            have htw : (c :: rest).takeWhile isWordC =
                (c :: rest).takeWhile isDigitC ++
                  ((c :: rest).dropWhile isDigitC).takeWhile isWordC :=
              takeWhile_word_split _
            have hdw : rest.dropWhile isWordC =
                ((c :: rest).dropWhile isDigitC).dropWhile isWordC := by
              have h0 := dropWhile_word_split (c :: rest)
              rwa [List.dropWhile_cons_of_pos hw] at h0
            have hdigc : (c :: rest).takeWhile isDigitC = c :: rest.takeWhile isDigitC :=
              List.takeWhile_cons_of_pos hd
            have hall := all_takeWhile isDigitC (c :: rest)
            have hlenA : ((c :: rest).dropWhile isDigitC).length ≤ n := by
              have h1 : ((c :: rest).dropWhile isDigitC).length ≤ rest.length := by
                rw [← hA, List.length_drop]
                simp only [List.length_cons, hdigc]
                simp
              omega
            have hlast : isWPrev (some (((c :: rest).takeWhile isDigitC).getLastD c)) = true :=
              getLastD_digit_word hall hd
            cases hAs : (c :: rest).dropWhile isDigitC with
            | cons a as =>
              rw [hA, hAs]
              have hlenA' : (a :: as).length ≤ n := hAs ▸ hlenA
              by_cases ha : isWordC a = true
              · -- the digit run continues into letters: no trailing boundary
                have haf : isBankRun ((c :: rest).takeWhile isWordC) = false := by
                  rw [htw, hAs, List.takeWhile_cons_of_pos ha]
                  have hnd : isDigitC a = false := head_dropWhile_false isDigitC (c :: rest) hAs
                  simp [isBankRun, hnd]
                rw [if_neg (by simp [ha]), List.filter_cons, haf, ih rest hrest (some c)]
                simp only [isWPrev, hw, if_pos]
                rw [hdw, hAs, if_neg (by simp)]
              · -- a boundary follows the digit run: the token is exactly the run
                have hwa : isWordC a = false := by simpa using ha
                have ht_eq : (c :: rest).takeWhile isWordC = (c :: rest).takeWhile isDigitC := by
                  rw [htw, hAs, List.takeWhile_cons_of_neg (p := isWordC) (by simpa using ha),
                    List.append_nil]
                have hih := ih (a :: as) hlenA' (some (((c :: rest).takeWhile isDigitC).getLastD c))
                rw [hlast, if_pos rfl,
                  List.dropWhile_cons_of_neg (p := isWordC) (by simpa using ha)] at hih
                have hadw : rest.dropWhile isWordC = a :: as := by
                  rw [hdw, hAs, List.dropWhile_cons_of_neg (p := isWordC) (by simpa using ha)]
                rw [ht_eq, List.filter_cons, hadw]
                have hcond :
                    (!isWPrev prev && isDigitC c &&
                      !((c == '6' || c == '7' || c == '8' || c == '9') &&
                        ((c :: rest).takeWhile isDigitC).length == 10 &&
                        (match (a :: as : List Char) with
                         | [] => true
                         | x :: _ => !isWordC x)) &&
                      decide (9 ≤ ((c :: rest).takeWhile isDigitC).length) &&
                      decide (((c :: rest).takeWhile isDigitC).length ≤ 18) &&
                      (match (a :: as : List Char) with
                       | [] => true
                       | x :: _ => !isWordC x)) =
                    isBankRun ((c :: rest).takeWhile isDigitC) := by
                  simp only [hpw', hd, hwa, Bool.not_false, Bool.true_and, Bool.and_true]
                  rw [bool_run_identity]
                  have hall2 : (c :: rest.takeWhile isDigitC).all isDigitC = true := hdigc ▸ hall
                  simp only [isBankRun, hdigc, List.headD_cons, hall2, Bool.true_and]
                rw [hcond]
                cases hbr : isBankRun ((c :: rest).takeWhile isDigitC) with
                | true =>
                  rw [if_pos rfl, if_pos rfl, hih]
                | false =>
                  rw [if_neg (by simp), if_neg (by simp), ih rest hrest (some c)]
                  simp only [isWPrev, hw, if_pos]
                  rw [hadw]
            | nil =>
              rw [hA, hAs]
              have ht_eq : (c :: rest).takeWhile isWordC = (c :: rest).takeWhile isDigitC := by
                rw [htw, hAs]
                simp
              have hadw : rest.dropWhile isWordC = ([] : List Char) := by
                rw [hdw, hAs]
                rfl
              rw [ht_eq, List.filter_cons, hadw]
              have hcond :
                  (!isWPrev prev && isDigitC c &&
                    !((c == '6' || c == '7' || c == '8' || c == '9') &&
                      ((c :: rest).takeWhile isDigitC).length == 10 &&
                      (match ([] : List Char) with
                       | [] => true
                       | x :: _ => !isWordC x)) &&
                    decide (9 ≤ ((c :: rest).takeWhile isDigitC).length) &&
                    decide (((c :: rest).takeWhile isDigitC).length ≤ 18) &&
                    (match ([] : List Char) with
                     | [] => true
                     | x :: _ => !isWordC x)) =
                  isBankRun ((c :: rest).takeWhile isDigitC) := by
                simp only [hpw', hd, Bool.not_false, Bool.true_and, Bool.and_true]
                rw [bool_run_identity]
                have hall2 : (c :: rest.takeWhile isDigitC).all isDigitC = true := hdigc ▸ hall
                simp only [isBankRun, hdigc, List.headD_cons, hall2, Bool.true_and]
              rw [hcond]
              cases hbr : isBankRun ((c :: rest).takeWhile isDigitC) with
              | true =>
                rw [if_pos rfl, if_pos rfl, bankScanGo_nil, wordTokens_nil]
                rfl
              | false =>
                rw [if_neg (by simp), if_neg (by simp), ih rest hrest (some c)]
                simp only [isWPrev, hw, if_pos]
                rw [hadw, wordTokens_nil]

/-! ## The claims -/

/-- C1: `check_completion` returns true exactly when `scamDetected` holds and
one of (a) high-value intelligence (non-empty bank accounts, UPI handles or
phishing links) with at least 4 logical turns, (b) at least 8 logical turns,
(c) at least 300 seconds since session start, where logical turns is the
minimum of the counterpart message count and the agent message count plus
one. In particular, a detected-scam session with one UPI handle completes
with 4 counterpart + 3 agent turns but not with 2 + 2 under 300 seconds. -/
theorem check_completion_rule :
    (∀ (s : Session) (combined : List Msg) (now : Int),
      check_completion s combined now = true ↔
        s.scamDetected = true ∧
        (((s.extractedIntelligence.bankAccounts ≠ [] ∨
           s.extractedIntelligence.upiIds ≠ [] ∨
           s.extractedIntelligence.phishingLinks ≠ []) ∧
          4 ≤ min ((combined.filter (fun m => m.sender == Sender.scammer)).length)
                  ((combined.filter (fun m => m.sender == Sender.user)).length + 1)) ∨
         8 ≤ min ((combined.filter (fun m => m.sender == Sender.scammer)).length)
                 ((combined.filter (fun m => m.sender == Sender.user)).length + 1) ∨
         s.started_at + 300 ≤ now)) ∧
    check_completion exSessionUpi (turnsHist 2 2) 10 = false ∧
    check_completion exSessionUpi (turnsHist 4 3) 10 = true := by
  refine ⟨?_, by decide, by decide⟩
  intro s combined now
  have hdur : 300 ≤ calculate_engagement_duration s.started_at now ↔
      s.started_at + 300 ≤ now := by
    unfold calculate_engagement_duration
    split <;> omega
  unfold check_completion is_intel_found
  cases hsd : s.scamDetected with
  | false => simp [hsd]
  | true =>
    simp only [hsd, Bool.not_true, if_true, if_false, Bool.false_eq_true, true_and]
    simp only [Bool.ite_eq_true_distrib]
    split_ifs with h1 h2 h3 <;> simp_all [List.isEmpty_iff, hdur] <;> tauto

/-- C2: once `callback_sent` is true it is terminal: along any sequence of
subsequent requests and callback resolutions on that session, the endpoint's
completion/callback gate never starts another dispatch and `callback_sent`
never reverts to false. -/
theorem callback_sent_terminal (s : Session) (evs : List Ev)
    (h : s.callback_sent = true) :
    (runTrace s evs).callback_sent = true ∧ dispatchCount s evs = 0 := by
  induction evs generalizing s with
  | nil => exact ⟨h, rfl⟩
  | cons e es ih =>
    have hstep : (stepEv s e).1.callback_sent = true ∧ (stepEv s e).2 = false := by
      cases e with
      | req i =>
        exact ⟨(processRequest_fields s i).1.trans h,
          processRequest_no_dispatch_of_sent s i h⟩
      | cb o n => exact ⟨backgroundCallback_sent s o n h, rfl⟩
    obtain ⟨h3, h4⟩ := ih (stepEv s e).1 hstep.1
    refine ⟨h3, ?_⟩
    show (if (stepEv s e).2 then 1 else 0) + dispatchCount (stepEv s e).1 es = 0
    rw [hstep.2, h4]
    rfl

/-- C2 witness: the fixture session with `callback_sent = true` keeps it true
and dispatches nothing over a request and two callback resolutions. -/
theorem callback_sent_terminal_witness :
    (runTrace exSessionSent exEventsSent).callback_sent = true ∧
    dispatchCount exSessionSent exEventsSent = 0 :=
  callback_sent_terminal exSessionSent exEventsSent rfl

/-- C3: a failed callback increments `callback_attempts` and clears
`callback_in_progress`; from the third failure on, `next_retry_at` is set to
`now + 60`; and a request evaluated while `now < next_retry_at` starts no
callback dispatch. -/
theorem callback_failure_retry_throttle (s : Session) (now : Int)
    (s2 : Session) (i : ReqInput) (t : Int) :
    (backgroundCallback s CbOutcome.fail now).callback_attempts =
      s.callback_attempts + 1 ∧
    (backgroundCallback s CbOutcome.fail now).callback_in_progress = false ∧
    (3 ≤ s.callback_attempts + 1 →
      (backgroundCallback s CbOutcome.fail now).next_retry_at = some (now + 60)) ∧
    (s2.next_retry_at = some t → i.now < t →
      (processRequest (some s2) i).2 = false) := by
  refine ⟨?_, ?_, ?_, fun h hn => processRequest_no_dispatch_of_retry s2 i t h hn⟩
  · simp [backgroundCallback, apply_ite Session.callback_attempts]
  · simp [backgroundCallback, apply_ite Session.callback_in_progress]
  · intro h
    simp only [backgroundCallback, apply_ite Session.next_retry_at]
    rw [if_pos h]

/-- C4: `check_scam` returns the confidence
`min(currentScore + 0.5 * historyScore, 0.99)`, always in `[0, 0.99]`, and
flags a scam exactly when the current text has strong evidence and the
confidence reaches the threshold, or the history has any evidence and the
confidence reaches the threshold plus 0.10, with the threshold at its
default 0.65. -/
theorem check_scam_decision_rule :
    SCAM_THRESHOLD = 65 / 100 ∧
    ∀ (m h : List Char),
      confidenceQ m h = min (scoreQ m + (1 / 2 : ℚ) * scoreQ h) (99 / 100) ∧
      0 ≤ confidenceQ m h ∧ confidenceQ m h ≤ 99 / 100 ∧
      ((check_scam m h).1 = true ↔
        ((calculate_text_score m).2.1 = true ∧ SCAM_THRESHOLD ≤ confidenceQ m h) ∨
        ((calculate_text_score h).2.2 = true ∧
          SCAM_THRESHOLD + 10 / 100 ≤ confidenceQ m h)) := by
  refine ⟨rfl, fun m h => ?_⟩
  have hcq : confidenceQ m h =
      ((min (2 * (calculate_text_score m).1 + (calculate_text_score h).1) 198 : Int) : ℚ) / 200 := by
    unfold confidenceQ
    rw [check_scam_snd]
  have h130 : SCAM_THRESHOLD ≤ confidenceQ m h ↔ 130 ≤ (check_scam m h).2 := by
    rw [show SCAM_THRESHOLD = ((130 : Int) : ℚ) / 200 by unfold SCAM_THRESHOLD; norm_num]
    exact confQ_le_iff m h 130
  have h150 : SCAM_THRESHOLD + 10 / 100 ≤ confidenceQ m h ↔ 150 ≤ (check_scam m h).2 := by
    rw [show SCAM_THRESHOLD + 10 / 100 = ((150 : Int) : ℚ) / 200 by
      unfold SCAM_THRESHOLD; norm_num]
    exact confQ_le_iff m h 150
  refine ⟨?_, ?_, ?_, ?_⟩
  · rw [hcq, Int.cast_min, ← min_div_div_right (by norm_num : (0:ℚ) ≤ 200)]
    unfold scoreQ
    push_cast
    rw [show (2 * (calculate_text_score m).1 + (calculate_text_score h).1 : ℚ) / 200 =
      (calculate_text_score m).1 / 100 + 1 / 2 * ((calculate_text_score h).1 / 100) by ring]
    norm_num
  · rw [hcq]
    apply div_nonneg _ (by norm_num : (0:ℚ) ≤ 200)
    have := textScore_nonneg m
    have := textScore_nonneg h
    exact_mod_cast le_min (by omega) (by omega : (0:Int) ≤ 198)
  · rw [hcq, div_le_iff₀ (by norm_num : (0:ℚ) < 200)]
    rw [show (99 / 100 * 200 : ℚ) = ((198 : Int) : ℚ) by norm_num]
    exact_mod_cast min_le_right _ _
  · rw [check_scam_fst, h130, h150]
    simp

/-- C5: each of the five `extractedIntelligence` categories is the union of
the existing and the newly extracted strings at every merge, so along any
sequence of requests the membership of every category only grows and the
number of distinct strings in it never decreases. -/
theorem extracted_intelligence_monotone :
    (∀ (cur : Intel) (nw : ExtOut) (x : List Char),
      (x ∈ (mergeIntel cur nw).bankAccounts ↔ x ∈ cur.bankAccounts ∨ x ∈ nw.bank) ∧
      (x ∈ (mergeIntel cur nw).upiIds ↔ x ∈ cur.upiIds ∨ x ∈ nw.upi) ∧
      (x ∈ (mergeIntel cur nw).phishingLinks ↔ x ∈ cur.phishingLinks ∨ x ∈ nw.links) ∧
      (x ∈ (mergeIntel cur nw).phoneNumbers ↔ x ∈ cur.phoneNumbers ∨ x ∈ nw.phones) ∧
      (x ∈ (mergeIntel cur nw).suspiciousKeywords ↔
        x ∈ cur.suspiciousKeywords ∨ x ∈ nw.keywords)) ∧
    (∀ (s : Session) (evs : List Ev),
      intelLe s.extractedIntelligence (runTrace s evs).extractedIntelligence ∧
      s.extractedIntelligence.bankAccounts.toFinset.card ≤
        (runTrace s evs).extractedIntelligence.bankAccounts.toFinset.card ∧
      s.extractedIntelligence.upiIds.toFinset.card ≤
        (runTrace s evs).extractedIntelligence.upiIds.toFinset.card ∧
      s.extractedIntelligence.phishingLinks.toFinset.card ≤
        (runTrace s evs).extractedIntelligence.phishingLinks.toFinset.card ∧
      s.extractedIntelligence.phoneNumbers.toFinset.card ≤
        (runTrace s evs).extractedIntelligence.phoneNumbers.toFinset.card ∧
      s.extractedIntelligence.suspiciousKeywords.toFinset.card ≤
        (runTrace s evs).extractedIntelligence.suspiciousKeywords.toFinset.card) := by
  constructor
  · intro cur nw x
    refine ⟨mem_unionCat, mem_unionCat, mem_unionCat, mem_unionCat, mem_unionCat⟩
  · intro s evs
    have h := runTrace_intelLe evs s
    exact ⟨h, card_le_of_subset h.1, card_le_of_subset h.2.1,
      card_le_of_subset h.2.2.1, card_le_of_subset h.2.2.2.1,
      card_le_of_subset h.2.2.2.2⟩

/-- C8 evidence: `extract_urls` does not strip a trailing apostrophe (the
source's strip-set literal holds only the seven characters of
`stripCharsUrl`), while the protocol-less `bit.ly` shortener is returned
with an `https://` prefix and its trailing sentence punctuation stripped. -/
theorem extract_urls_trailing_strip_behavior :
    extract_urls (lc "see http://evil.com\x27 now") = [lc "http://evil.com\x27"] ∧
    extract_urls (lc "visit bit.ly/kyc2026 now.") = [lc "https://bit.ly/kyc2026"] ∧
    stripCharsUrl = [')', '.', ',', ';', '!', '?', '"'] := by
  refine ⟨by decide, by decide, rfl⟩

/-- C9: on "I am traveling to Japan" the scorer does not count `pan` as a
matched keyword although it occurs as a substring of the normalized text,
finds no strong evidence, and `check_scam` with empty history does not
classify the text as a scam. -/
theorem japan_pan_token_boundary :
    lc "pan" ∉ matchedKeywords (lc "I am traveling to Japan") ∧
    containsSub (normalizeText (lc "I am traveling to Japan")) (lc "pan") = true ∧
    (calculate_text_score (lc "I am traveling to Japan")).2.1 = false ∧
    (check_scam (lc "I am traveling to Japan") []).1 = false := by
  refine ⟨by decide, by decide, by decide, by decide⟩

/-- C10: the in-memory and the Redis store compute the same merged
transcript from the same stored internal records and platform history. -/
theorem get_combined_history_store_equiv :
    ∀ (parseIso : List Char → Option Int) (internal : List RawRec)
      (platform : List Msg),
      inMemoryCombinedHistory parseIso internal platform =
        redisCombinedHistory parseIso internal platform :=
  fun _ _ _ => rfl

theorem extract_bank_run_chars (text : List Char) :
    extract_bank_accounts text = ((wordTokens text).filter isBankRun).dedup := by
  show (bankScanGo none text).dedup = _
  rw [bankScan_eq_tokens text.length text (Nat.le_refl _) none, if_neg (by simp [isWPrev])]

theorem headD_eq_headq (l : List Char) (d : Char) : l.headD d = l.head?.getD d := by
  cases l <;> rfl

/-- C7: `extract_bank_accounts` returns exactly the word tokens (maximal
word-character runs, i.e. digit runs on word boundaries) made of 9 to 18
digits, with 10-digit runs starting with 6, 7, 8 or 9 excluded by the
leading negative lookahead; in particular it returns nothing on
"9876543210". -/
theorem extract_bank_accounts_digit_runs :
    (∀ (text : List Char),
      extract_bank_accounts text = ((wordTokens text).filter isBankRun).dedup) ∧
    (∀ (text s : List Char),
      s ∈ extract_bank_accounts text ↔
        s ∈ wordTokens text ∧ s.all isDigitC = true ∧
        9 ≤ s.length ∧ s.length ≤ 18 ∧
        ¬(s.length = 10 ∧ (s.headD 'x' = '6' ∨ s.headD 'x' = '7' ∨
          s.headD 'x' = '8' ∨ s.headD 'x' = '9'))) ∧
    extract_bank_accounts (lc "9876543210") = [] := by
  refine ⟨extract_bank_run_chars, ?_, by decide⟩
  intro text s
  rw [extract_bank_run_chars, List.mem_dedup, List.mem_filter]
  simp only [isBankRun, Bool.and_eq_true, decide_eq_true_eq, Bool.not_eq_true',
    Bool.and_eq_false_iff, Bool.or_eq_true, beq_iff_eq]
  constructor
  · rintro ⟨hmem, ⟨⟨hall, h9⟩, h18⟩, hlast⟩
    refine ⟨hmem, hall, h9, h18, ?_⟩
    rintro ⟨hl10, hc⟩
    rcases hlast with h | h
    · exact absurd hl10 (by simpa using h)
    · rw [headD_eq_headq] at hc
      rcases hc with hc | hc | hc | hc <;> simp [hc] at h
  · rintro ⟨hmem, hall, h9, h18, hn⟩
    refine ⟨hmem, ⟨⟨hall, h9⟩, h18⟩, ?_⟩
    by_cases hl10 : s.length = 10
    · right
      have : ¬(s.headD 'x' = '6' ∨ s.headD 'x' = '7' ∨ s.headD 'x' = '8' ∨ s.headD 'x' = '9') :=
        fun hc => hn ⟨hl10, hc⟩
      simp only [not_or, headD_eq_headq] at this
      simp [this.1, this.2.1, this.2.2.1, this.2.2.2]
    · left
      simpa using hl10

end Honeypot
